import Mathlib

/-!
Verification of the CPU target context of `numba/targets/cpu.py`.

The development embeds the refcount-pair elimination pass
(`remove_refct_pairs`, `remove_null_refct_call`, `remove_refct_calls`),
the native-function registry operations (`remove_native_function`,
the registration performed by `get_executable`) and the array struct
size computation (`calc_array_sizeof`) as executable Lean functions,
and proves the behavioural properties claimed of them.
-/

namespace NumbaCPU

/-! ## Instruction and basic-block model

A basic block is an ordered list of instructions.  The pass only
inspects call instructions (callee name and first operand); all other
instructions are opaque.  Operands are identified up to LLVM value
identity; a constant null pointer is one possible operand
(`Operand.nullref`), any other value is `Operand.value n`. -/

inductive Operand where
  | nullref : Operand
  | value : Nat → Operand
deriving DecidableEq

/-- An IR instruction as seen by the pass: a call/invoke instruction
carrying its callee name and first operand (`inst.called_function.name`,
`inst.operands[0]`), or any other instruction (opaque tag). -/
inductive Inst where
  | call : String → Operand → Inst
  | other : Nat → Inst
deriving DecidableEq

/-- Test of the `fname == "Py_IncRef"` branch of the pass: `i` is a
reference-increment call. -/
def isIncref (i : Inst) : Bool :=
  match i with
  | Inst.call fname _ => decide (fname = "Py_IncRef")
  | Inst.other _ => false

/-- Test of the `fname == "Py_DecRef"` branch of the pass: `i` is a
reference-decrement call. -/
def isDecref (i : Inst) : Bool :=
  match i with
  | Inst.call fname _ => decide (fname = "Py_DecRef")
  | Inst.other _ => false

/-- `i` is a reference-increment call whose operand is `v`. -/
def isIncrefOf (v : Operand) (i : Inst) : Bool :=
  match i with
  | Inst.call fname arg => decide (fname = "Py_IncRef") && decide (arg = v)
  | Inst.other _ => false

/-- `i` is a reference-decrement call whose operand is `v`. -/
def isDecrefOf (v : Operand) (i : Inst) : Bool :=
  match i with
  | Inst.call fname arg => decide (fname = "Py_DecRef") && decide (arg = v)
  | Inst.other _ => false

theorem isIncrefOf_iff (v : Operand) (i : Inst) :
    isIncrefOf v i = true ↔ i = Inst.call "Py_IncRef" v := by
  cases i with
  | call fname arg => simp [isIncrefOf, Inst.call.injEq, and_comm]
  | other t => simp [isIncrefOf]

theorem isDecrefOf_iff (v : Operand) (i : Inst) :
    isDecrefOf v i = true ↔ i = Inst.call "Py_DecRef" v := by
  cases i with
  | call fname arg => simp [isDecrefOf, Inst.call.injEq, and_comm]
  | other t => simp [isDecrefOf]

/-- Python dict assignment `m[k] = v`: overwrite the value in place if
the key is present, otherwise append the binding. -/
def dictSet (m : List (Operand × Nat)) (k : Operand) (v : Nat) :
    List (Operand × Nat) :=
  match m with
  | [] => [(k, v)]
  | (k', v') :: rest =>
      if k' = k then (k, v) :: rest else (k', v') :: dictSet rest k v

/-- Python dict lookup `m[k]` / `k in m`. -/
def dictGet (m : List (Operand × Nat)) (k : Operand) : Option Nat :=
  match m with
  | [] => none
  | (k', v') :: rest => if k' = k then some v' else dictGet rest k

/-- The Mark phase of `remove_refct_pairs`: scan the block in order and
record, per operand, the most recent `Py_IncRef` call and the most
recent `Py_DecRef` call.  Instructions are identified by their position
in the block; `idx` is the position of the first instruction of
`insts`. -/
def mark : Nat → List Inst → List (Operand × Nat) → List (Operand × Nat) →
    List (Operand × Nat) × List (Operand × Nat)
  | _, [], increfs, decrefs => (increfs, decrefs)
  | idx, Inst.call fname arg :: rest, increfs, decrefs =>
      if fname = "Py_IncRef" then
        mark (idx + 1) rest (dictSet increfs arg idx) decrefs
      else if fname = "Py_DecRef" then
        mark (idx + 1) rest increfs (dictSet decrefs arg idx)
      else
        mark (idx + 1) rest increfs decrefs
  | idx, Inst.other _ :: rest, increfs, decrefs =>
      mark (idx + 1) rest increfs decrefs

/-- The Sweep phase of `remove_refct_pairs`: for every operand recorded
in both maps, erase the recorded increment and the recorded decrement.
Returns the positions of the instructions to erase. -/
def sweep (increfs decrefs : List (Operand × Nat)) : List Nat :=
  match increfs with
  | [] => []
  | (val, i) :: rest =>
      match dictGet decrefs val with
      | some j => i :: j :: sweep rest decrefs
      | none => sweep rest decrefs

/-- Erase from a block the instructions at the given absolute positions
(`inst.erase_from_parent()` for each recorded instruction); `idx` is
the absolute position of the head of `insts`. -/
def eraseIdxs (idx : Nat) (insts : List Inst) (dels : List Nat) : List Inst :=
  match insts with
  | [] => []
  | inst :: rest =>
      if idx ∈ dels then eraseIdxs (idx + 1) rest dels
      else inst :: eraseIdxs (idx + 1) rest dels

/-- One iteration of the `while didsomething` loop of
`remove_refct_pairs`: mark, then sweep.  Returns the rewritten block
and the `didsomething` flag. -/
def onePass (bb : List Inst) : List Inst × Bool :=
  let marked := mark 0 bb [] []
  let dels := sweep marked.1 marked.2
  if dels.isEmpty then (bb, false) else (eraseIdxs 0 bb dels, true)

theorem dictSet_mem {m : List (Operand × Nat)} {k : Operand} {v : Nat}
    {kv : Operand × Nat} (h : kv ∈ dictSet m k v) : kv = (k, v) ∨ kv ∈ m := by
  induction m with
  | nil => simpa [dictSet] using h
  | cons hd tl ih =>
      obtain ⟨k', v'⟩ := hd
      by_cases hk : k' = k
      · simp only [dictSet, if_pos hk] at h
        rcases List.mem_cons.mp h with h | h
        · exact Or.inl h
        · exact Or.inr (List.mem_cons_of_mem _ h)
      · simp only [dictSet, if_neg hk] at h
        rcases List.mem_cons.mp h with h | h
        · exact Or.inr (List.mem_cons.mpr (Or.inl h))
        · rcases ih h with h | h
          · exact Or.inl h
          · exact Or.inr (List.mem_cons_of_mem _ h)

theorem dictGet_mem {m : List (Operand × Nat)} {k : Operand} {v : Nat}
    (h : dictGet m k = some v) : (k, v) ∈ m := by
  induction m with
  | nil => simp [dictGet] at h
  | cons hd tl ih =>
      obtain ⟨k', v'⟩ := hd
      by_cases hk : k' = k
      · simp only [dictGet, if_pos hk, Option.some.injEq] at h
        subst hk; subst h; exact List.mem_cons_self _ _
      · simp only [dictGet, if_neg hk] at h
        exact List.mem_cons_of_mem _ (ih h)

theorem dictSet_dictSet (m : List (Operand × Nat)) (k : Operand) (a b : Nat) :
    dictSet (dictSet m k a) k b = dictSet m k b := by
  induction m with
  | nil => simp [dictSet]
  | cons hd tl ih =>
      obtain ⟨k', v'⟩ := hd
      by_cases hk : k' = k
      · simp [dictSet, hk]
      · simp [dictSet, hk, ih]

/-- Every binding of the incref map produced by the Mark phase either
was already in the accumulator or records the position of a
`Py_IncRef` call in the scanned block. -/
theorem mark_fst_mem : ∀ (bb : List Inst) (idx : Nat)
    (inc dec : List (Operand × Nat)) (k : Operand) (v : Nat),
    (k, v) ∈ (mark idx bb inc dec).1 →
    (k, v) ∈ inc ∨ ∃ j, ∃ hj : j < bb.length,
      v = idx + j ∧ bb.get ⟨j, hj⟩ = Inst.call "Py_IncRef" k := by
  intro bb
  induction bb with
  | nil => intro idx inc dec k v h; exact Or.inl h
  | cons hd tl ih =>
      intro idx inc dec k v h
      match hd with
      | Inst.other t =>
          simp only [mark] at h
          rcases ih (idx + 1) inc dec k v h with h | ⟨j, hj, hv, hg⟩
          · exact Or.inl h
          · exact Or.inr ⟨j + 1, by simpa using Nat.succ_lt_succ hj,
              by omega, hg⟩
      | Inst.call fname arg =>
          by_cases hf : fname = "Py_IncRef"
          · simp only [mark, if_pos hf] at h
            rcases ih (idx + 1) (dictSet inc arg idx) dec k v h with h | ⟨j, hj, hv, hg⟩
            · rcases dictSet_mem h with h | h
              · refine Or.inr ⟨0, by simp, ?_, ?_⟩
                · simpa using congrArg Prod.snd h
                · have hk : k = arg := by simpa using congrArg Prod.fst h
                  simp [hk, hf]
              · exact Or.inl h
            · exact Or.inr ⟨j + 1, by simpa using Nat.succ_lt_succ hj,
                by omega, hg⟩
          · by_cases hg' : fname = "Py_DecRef"
            · simp only [mark, if_neg hf, if_pos hg'] at h
              rcases ih (idx + 1) inc (dictSet dec arg idx) k v h with h | ⟨j, hj, hv, hg⟩
              · exact Or.inl h
              · exact Or.inr ⟨j + 1, by simpa using Nat.succ_lt_succ hj,
                  by omega, hg⟩
            · simp only [mark, if_neg hf, if_neg hg'] at h
              rcases ih (idx + 1) inc dec k v h with h | ⟨j, hj, hv, hg⟩
              · exact Or.inl h
              · exact Or.inr ⟨j + 1, by simpa using Nat.succ_lt_succ hj,
                  by omega, hg⟩

/-- Every binding of the decref map produced by the Mark phase either
was already in the accumulator or records the position of a
`Py_DecRef` call in the scanned block. -/
theorem mark_snd_mem : ∀ (bb : List Inst) (idx : Nat)
    (inc dec : List (Operand × Nat)) (k : Operand) (v : Nat),
    (k, v) ∈ (mark idx bb inc dec).2 →
    (k, v) ∈ dec ∨ ∃ j, ∃ hj : j < bb.length,
      v = idx + j ∧ bb.get ⟨j, hj⟩ = Inst.call "Py_DecRef" k := by
  intro bb
  induction bb with
  | nil => intro idx inc dec k v h; exact Or.inl h
  | cons hd tl ih =>
      intro idx inc dec k v h
      match hd with
      | Inst.other t =>
          simp only [mark] at h
          rcases ih (idx + 1) inc dec k v h with h | ⟨j, hj, hv, hg⟩
          · exact Or.inl h
          · exact Or.inr ⟨j + 1, by simpa using Nat.succ_lt_succ hj,
              by omega, hg⟩
      | Inst.call fname arg =>
          by_cases hf : fname = "Py_IncRef"
          · simp only [mark, if_pos hf] at h
            rcases ih (idx + 1) (dictSet inc arg idx) dec k v h with h | ⟨j, hj, hv, hg⟩
            · exact Or.inl h
            · exact Or.inr ⟨j + 1, by simpa using Nat.succ_lt_succ hj,
                by omega, hg⟩
          · by_cases hg' : fname = "Py_DecRef"
            · simp only [mark, if_neg hf, if_pos hg'] at h
              rcases ih (idx + 1) inc (dictSet dec arg idx) k v h with h | ⟨j, hj, hv, hg⟩
              · rcases dictSet_mem h with h | h
                · refine Or.inr ⟨0, by simp, ?_, ?_⟩
                  · simpa using congrArg Prod.snd h
                  · have hk : k = arg := by simpa using congrArg Prod.fst h
                    simp [hk, hg']
                · exact Or.inl h
              · exact Or.inr ⟨j + 1, by simpa using Nat.succ_lt_succ hj,
                  by omega, hg⟩
            · simp only [mark, if_neg hf, if_neg hg'] at h
              rcases ih (idx + 1) inc dec k v h with h | ⟨j, hj, hv, hg⟩
              · exact Or.inl h
              · exact Or.inr ⟨j + 1, by simpa using Nat.succ_lt_succ hj,
                  by omega, hg⟩

/-- Every position scheduled for erasure by the Sweep phase is either
a recorded increment position of an operand that also has a recorded
decrement, or a recorded decrement position of an operand that also
has a recorded increment. -/
theorem sweep_mem {inc dec : List (Operand × Nat)} {d : Nat}
    (h : d ∈ sweep inc dec) :
    (∃ k, (k, d) ∈ inc ∧ ∃ j, dictGet dec k = some j) ∨
      ∃ k, dictGet dec k = some d ∧ ∃ i, (k, i) ∈ inc := by
  induction inc with
  | nil => simp [sweep] at h
  | cons hd tl ih =>
      obtain ⟨val, i⟩ := hd
      cases hget : dictGet dec val with
      | some j =>
          simp only [sweep, hget] at h
          rcases List.mem_cons.mp h with h | h
          · exact Or.inl ⟨val, by simp [h], j, hget⟩
          · rcases List.mem_cons.mp h with h | h
            · exact Or.inr ⟨val, by rw [hget, h], i, List.mem_cons_self _ _⟩
            · rcases ih h with ⟨k, hk, j', hj'⟩ | ⟨k, hk, i', hi'⟩
              · exact Or.inl ⟨k, List.mem_cons_of_mem _ hk, j', hj'⟩
              · exact Or.inr ⟨k, hk, i', List.mem_cons_of_mem _ hi'⟩
      | none =>
          simp only [sweep, hget] at h
          rcases ih h with ⟨k, hk, j', hj'⟩ | ⟨k, hk, i', hi'⟩
          · exact Or.inl ⟨k, List.mem_cons_of_mem _ hk, j', hj'⟩
          · exact Or.inr ⟨k, hk, i', List.mem_cons_of_mem _ hi'⟩

/-- If the Sweep phase scheduled anything at all, it scheduled a full
pair: a recorded increment position and a recorded decrement position
of one and the same operand. -/
theorem sweep_pairs {inc dec : List (Operand × Nat)} {d : Nat}
    (h : d ∈ sweep inc dec) :
    ∃ k i j, (k, i) ∈ inc ∧ dictGet dec k = some j ∧
      i ∈ sweep inc dec ∧ j ∈ sweep inc dec := by
  induction inc with
  | nil => simp [sweep] at h
  | cons hd tl ih =>
      obtain ⟨val, i⟩ := hd
      cases hget : dictGet dec val with
      | some j =>
          exact ⟨val, i, j, List.mem_cons_self _ _, hget,
            by simp [sweep, hget], by simp [sweep, hget]⟩
      | none =>
          simp only [sweep, hget] at h ⊢
          rcases ih h with ⟨k, i', j', hk, hj, hi1, hj1⟩
          exact ⟨k, i', j', List.mem_cons_of_mem _ hk, hj, hi1, hj1⟩

/-- If no operand of the incref map matches in the decref map, the
Sweep phase schedules nothing. -/
theorem sweep_nil (inc dec : List (Operand × Nat))
    (h : ∀ k i, (k, i) ∈ inc → dictGet dec k = none) : sweep inc dec = [] := by
  induction inc with
  | nil => rfl
  | cons hd tl ih =>
      obtain ⟨val, i⟩ := hd
      have hget := h val i (List.mem_cons_self _ _)
      simp only [sweep, hget]
      exact ih fun k i' hk => h k i' (List.mem_cons_of_mem _ hk)

theorem eraseIdxs_sublist : ∀ (bb : List Inst) (idx : Nat) (dels : List Nat),
    List.Sublist (eraseIdxs idx bb dels) bb := by
  intro bb
  induction bb with
  | nil => intro idx dels; simp [eraseIdxs]
  | cons hd tl ih =>
      intro idx dels
      by_cases hi : idx ∈ dels
      · simpa [eraseIdxs, hi] using List.Sublist.cons hd (ih (idx + 1) dels)
      · simpa [eraseIdxs, hi] using List.Sublist.cons₂ hd (ih (idx + 1) dels)

theorem eraseIdxs_length_le (bb : List Inst) (idx : Nat) (dels : List Nat) :
    (eraseIdxs idx bb dels).length ≤ bb.length :=
  (eraseIdxs_sublist bb idx dels).length_le

theorem eraseIdxs_length_lt : ∀ (bb : List Inst) (idx : Nat) (dels : List Nat)
    (d : Nat), d ∈ dels → idx ≤ d → d < idx + bb.length →
    (eraseIdxs idx bb dels).length < bb.length := by
  intro bb
  induction bb with
  | nil => intro idx dels d _ h1 h2; simp only [List.length_nil] at h2; omega
  | cons hd tl ih =>
      intro idx dels d hd1 h1 h2
      simp only [List.length_cons] at h2
      by_cases hi : idx ∈ dels
      · simp only [eraseIdxs, if_pos hi, List.length_cons]
        exact Nat.lt_succ_of_le (eraseIdxs_length_le tl (idx + 1) dels)
      · have hne : d ≠ idx := fun h => hi (h ▸ hd1)
        simp only [eraseIdxs, if_neg hi, List.length_cons]
        have := ih (idx + 1) dels d hd1 (by omega) (by omega)
        omega

theorem eraseIdxs_length_two : ∀ (bb : List Inst) (idx : Nat) (dels : List Nat)
    (d1 d2 : Nat), d1 ∈ dels → d2 ∈ dels → d1 ≠ d2 →
    idx ≤ d1 → d1 < idx + bb.length → idx ≤ d2 → d2 < idx + bb.length →
    (eraseIdxs idx bb dels).length + 2 ≤ bb.length := by
  intro bb
  induction bb with
  | nil =>
      intro idx dels d1 d2 _ _ _ h1 h2 _ _
      simp only [List.length_nil] at h2; omega
  | cons hd tl ih =>
      intro idx dels d1 d2 hd1 hd2 hne h1 h2 h3 h4
      simp only [List.length_cons] at h2 h4
      by_cases hi : idx ∈ dels
      · simp only [eraseIdxs, if_pos hi, List.length_cons]
        by_cases he1 : d1 = idx
        · have hne2 : d2 ≠ idx := fun h => hne (by omega)
          have := eraseIdxs_length_lt tl (idx + 1) dels d2 hd2 (by omega) (by omega)
          omega
        · have := eraseIdxs_length_lt tl (idx + 1) dels d1 hd1 (by omega) (by omega)
          omega
      · have hne1 : d1 ≠ idx := fun h => hi (h ▸ hd1)
        have hne2 : d2 ≠ idx := fun h => hi (h ▸ hd2)
        simp only [eraseIdxs, if_neg hi, List.length_cons]
        have := ih (idx + 1) dels d1 d2 hd1 hd2 hne (by omega) (by omega) (by omega) (by omega)
        omega

/-- Erasure only touches scheduled positions: filtering by any
predicate that is false at every scheduled position is unaffected. -/
theorem eraseIdxs_filter (p : Inst → Bool) : ∀ (bb : List Inst) (idx : Nat)
    (dels : List Nat),
    (∀ j, ∀ hj : j < bb.length, (idx + j) ∈ dels → p (bb.get ⟨j, hj⟩) = false) →
    (eraseIdxs idx bb dels).filter p = bb.filter p := by
  intro bb
  induction bb with
  | nil => intro idx dels _; rfl
  | cons hd tl ih =>
      intro idx dels hp
      have htl : ∀ j, ∀ hj : j < tl.length, (idx + 1 + j) ∈ dels →
          p (tl.get ⟨j, hj⟩) = false := by
        intro j hj hmem
        have := hp (j + 1) (by simpa using Nat.succ_lt_succ hj)
          (by simpa [Nat.add_assoc, Nat.add_comm 1 j] using hmem)
        simpa using this
      by_cases hi : idx ∈ dels
      · have hphd : p hd = false := by
          simpa using hp 0 (by simp) (by simpa using hi)
        simp only [eraseIdxs, if_pos hi, List.filter_cons, hphd]
        exact ih (idx + 1) dels htl
      · simp only [eraseIdxs, if_neg hi, List.filter_cons]
        rw [ih (idx + 1) dels htl]

theorem onePass_progress (bb : List Inst) (h : (onePass bb).2 = true) :
    (onePass bb).1.length < bb.length := by
  by_cases he : (sweep (mark 0 bb [] []).1 (mark 0 bb [] []).2).isEmpty
  · simp [onePass, he] at h
  · simp only [onePass, he, if_neg, Bool.false_eq_true, not_false_iff, if_false]
    obtain ⟨d, hd⟩ := List.exists_mem_of_ne_nil _
      (by simpa [List.isEmpty_iff] using he)
    have hlt : d < bb.length := by
      rcases sweep_mem hd with ⟨k, hk, _, _⟩ | ⟨k, hk, _, _⟩
      · rcases mark_fst_mem bb 0 [] [] k d hk with h' | ⟨j, hj, hv, _⟩
        · simp at h'
        · omega
      · rcases mark_snd_mem bb 0 [] [] k d (dictGet_mem hk) with h' | ⟨j, hj, hv, _⟩
        · simp at h'
        · omega
    exact eraseIdxs_length_lt bb 0 _ d hd (Nat.zero_le d) (by omega)

/-- The `remove_refct_pairs` peephole pass of `cpu.py`: repeat
mark-and-sweep over the block until a pass erases nothing. -/
def remove_refct_pairs (bb : List Inst) : List Inst :=
  if h : (onePass bb).2 = true then remove_refct_pairs (onePass bb).1 else bb
  termination_by bb.length
  decreasing_by exact onePass_progress bb h

/-- `remove_null_refct_call` of `cpu.py`: its body is `pass` (the
null-operand elision is explicitly skipped), so it is the identity on
the block. -/
def remove_null_refct_call (bb : List Inst) : List Inst := bb

/-- `remove_refct_calls` of `cpu.py`: apply `remove_null_refct_call`
then `remove_refct_pairs` to every basic block of the function. -/
def remove_refct_calls (func : List (List Inst)) : List (List Inst) :=
  func.map fun bb => remove_refct_pairs (remove_null_refct_call bb)

theorem onePass_false (bb : List Inst) (h : (onePass bb).2 = false) :
    (onePass bb).1 = bb := by
  by_cases he : (sweep (mark 0 bb [] []).1 (mark 0 bb [] []).2).isEmpty
  · simp [onePass, he]
  · simp [onePass, he] at h

theorem onePass_sublist (bb : List Inst) : List.Sublist (onePass bb).1 bb := by
  by_cases he : (sweep (mark 0 bb [] []).1 (mark 0 bb [] []).2).isEmpty
  · simp [onePass, he]
  · simp only [onePass, he, Bool.false_eq_true, if_false]
    exact eraseIdxs_sublist bb 0 _

theorem rrp_of_fix (bb : List Inst) (h : (onePass bb).2 = false) :
    remove_refct_pairs bb = bb := by
  rw [remove_refct_pairs]
  simp [h]

theorem rrp_fix (bb : List Inst) :
    (onePass (remove_refct_pairs bb)).2 = false := by
  rw [remove_refct_pairs]
  split
  · next h => exact rrp_fix (onePass bb).1
  · next h => simpa using h
  termination_by bb.length
  decreasing_by exact onePass_progress bb (by assumption)

theorem rrp_sublist (bb : List Inst) :
    List.Sublist (remove_refct_pairs bb) bb := by
  rw [remove_refct_pairs]
  split
  · next h =>
      exact List.Sublist.trans (rrp_sublist (onePass bb).1) (onePass_sublist bb)
  · exact List.Sublist.refl bb
  termination_by bb.length
  decreasing_by exact onePass_progress bb (by assumption)

/-- Every position scheduled for erasure by a pass holds an increment
or a decrement call on an operand that has both an increment and a
decrement somewhere in the block. -/
theorem dels_spec (bb : List Inst) (d : Nat)
    (hd : d ∈ sweep (mark 0 bb [] []).1 (mark 0 bb [] []).2) :
    ∃ k, ∃ h : d < bb.length,
      (bb.get ⟨d, h⟩ = Inst.call "Py_IncRef" k ∨
        bb.get ⟨d, h⟩ = Inst.call "Py_DecRef" k)
      ∧ (∃ j, ∃ hj : j < bb.length, bb.get ⟨j, hj⟩ = Inst.call "Py_IncRef" k)
      ∧ (∃ j, ∃ hj : j < bb.length, bb.get ⟨j, hj⟩ = Inst.call "Py_DecRef" k) := by
  rcases sweep_mem hd with ⟨k, hk, j, hj⟩ | ⟨k, hk, i, hi⟩
  · rcases mark_fst_mem bb 0 [] [] k d hk with h | ⟨j0, hj0, hv, hg⟩
    · simp at h
    · have hd' : d = j0 := by omega
      subst hd'
      rcases mark_snd_mem bb 0 [] [] k j (dictGet_mem hj) with h | ⟨j1, hj1, hv1, hg1⟩
      · simp at h
      · exact ⟨k, hj0, Or.inl hg, ⟨d, hj0, hg⟩, ⟨j1, hj1, hg1⟩⟩
  · rcases mark_snd_mem bb 0 [] [] k d (dictGet_mem hk) with h | ⟨j0, hj0, hv, hg⟩
    · simp at h
    · have hd' : d = j0 := by omega
      subst hd'
      rcases mark_fst_mem bb 0 [] [] k i hi with h | ⟨j1, hj1, hv1, hg1⟩
      · simp at h
      · exact ⟨k, hj0, Or.inr hg, ⟨j1, hj1, hg1⟩, ⟨d, hj0, hg⟩⟩

/-- A single pass preserves, position for position, every instruction
at which a predicate `p` holds, provided `p` is false at every
increment/decrement call on an operand having both in the block. -/
theorem onePass_filter (p : Inst → Bool) (bb : List Inst)
    (hp : ∀ (d : Nat) (h : d < bb.length) (k : Operand),
        (bb.get ⟨d, h⟩ = Inst.call "Py_IncRef" k ∨
          bb.get ⟨d, h⟩ = Inst.call "Py_DecRef" k) →
        (∃ j, ∃ hj : j < bb.length, bb.get ⟨j, hj⟩ = Inst.call "Py_IncRef" k) →
        (∃ j, ∃ hj : j < bb.length, bb.get ⟨j, hj⟩ = Inst.call "Py_DecRef" k) →
        p (bb.get ⟨d, h⟩) = false) :
    (onePass bb).1.filter p = bb.filter p := by
  by_cases he : (sweep (mark 0 bb [] []).1 (mark 0 bb [] []).2).isEmpty
  · simp [onePass, he]
  · simp only [onePass, he, Bool.false_eq_true, if_false]
    apply eraseIdxs_filter
    intro j hj hmem
    have hmem' : j ∈ sweep (mark 0 bb [] []).1 (mark 0 bb [] []).2 := by
      simpa using hmem
    rcases dels_spec bb j hmem' with ⟨k, h', hor, hincex, hdecex⟩
    exact hp j hj k hor hincex hdecex

theorem rrp_filter_other (bb : List Inst) :
    (remove_refct_pairs bb).filter (fun i => !(isIncref i || isDecref i)) =
      bb.filter (fun i => !(isIncref i || isDecref i)) := by
  rw [remove_refct_pairs]
  split
  · next h =>
      rw [rrp_filter_other (onePass bb).1]
      apply onePass_filter
      intro d hd k hor _ _
      rcases hor with hg | hg <;> rw [hg] <;> simp [isIncref, isDecref]
  · rfl
  termination_by bb.length
  decreasing_by exact onePass_progress bb (by assumption)

theorem rrp_filter_inc (bb : List Inst) (v : Operand)
    (hno : bb.filter (isDecrefOf v) = []) :
    (remove_refct_pairs bb).filter (isIncrefOf v) =
      bb.filter (isIncrefOf v) := by
  rw [remove_refct_pairs]
  split
  · next h =>
      have hs := (onePass_sublist bb).filter (isDecrefOf v)
      rw [hno] at hs
      rw [rrp_filter_inc (onePass bb).1 v (List.sublist_nil.mp hs)]
      apply onePass_filter
      intro d hd k hor hincex hdecex
      rcases hor with hg | hg
      · by_cases hkv : k = v
        · subst hkv
          obtain ⟨j, hj, hgj⟩ := hdecex
          exfalso
          have hmem : bb.get ⟨j, hj⟩ ∈ bb.filter (isDecrefOf k) :=
            List.mem_filter.mpr ⟨List.get_mem bb j hj, by rw [hgj]; simp [isDecrefOf]⟩
          rw [hno] at hmem
          simp at hmem
        · rw [hg]; simp [isIncrefOf, hkv]
      · rw [hg]; simp [isIncrefOf]
  · rfl
  termination_by bb.length
  decreasing_by exact onePass_progress bb (by assumption)

theorem rrp_filter_dec (bb : List Inst) (v : Operand)
    (hno : bb.filter (isIncrefOf v) = []) :
    (remove_refct_pairs bb).filter (isDecrefOf v) =
      bb.filter (isDecrefOf v) := by
  rw [remove_refct_pairs]
  split
  · next h =>
      have hs := (onePass_sublist bb).filter (isIncrefOf v)
      rw [hno] at hs
      rw [rrp_filter_dec (onePass bb).1 v (List.sublist_nil.mp hs)]
      apply onePass_filter
      intro d hd k hor hincex hdecex
      rcases hor with hg | hg
      · rw [hg]; simp [isDecrefOf]
      · by_cases hkv : k = v
        · subst hkv
          obtain ⟨j, hj, hgj⟩ := hincex
          exfalso
          have hmem : bb.get ⟨j, hj⟩ ∈ bb.filter (isIncrefOf k) :=
            List.mem_filter.mpr ⟨List.get_mem bb j hj, by rw [hgj]; simp [isIncrefOf]⟩
          rw [hno] at hmem
          simp at hmem
        · rw [hg]; simp [isDecrefOf, hkv]
  · rfl
  termination_by bb.length
  decreasing_by exact onePass_progress bb (by assumption)

theorem eraseIdxs_append : ∀ (l1 l2 : List Inst) (idx : Nat) (dels : List Nat),
    eraseIdxs idx (l1 ++ l2) dels
      = eraseIdxs idx l1 dels ++ eraseIdxs (idx + l1.length) l2 dels := by
  intro l1
  induction l1 with
  | nil => intro l2 idx dels; simp [eraseIdxs]
  | cons hd tl ih =>
      intro l2 idx dels
      have e : idx + 1 + tl.length = idx + (tl.length + 1) := by omega
      by_cases hi : idx ∈ dels
      · rw [List.cons_append, eraseIdxs, if_pos hi, ih l2 (idx + 1) dels, e,
          eraseIdxs, if_pos hi, List.length_cons]
      · rw [List.cons_append, eraseIdxs, if_neg hi, ih l2 (idx + 1) dels, e,
          eraseIdxs, if_neg hi, List.length_cons, List.cons_append]

theorem eraseIdxs_rep_last (x : Inst) : ∀ (n idx : Nat) (dels : List Nat),
    (idx + n) ∈ dels → (∀ j, j < n → (idx + j) ∉ dels) →
    eraseIdxs idx (List.replicate (n + 1) x) dels = List.replicate n x := by
  intro n
  induction n with
  | zero =>
      intro idx dels hmem _
      simp only [List.replicate, eraseIdxs]
      rw [if_pos (by simpa using hmem)]
  | succ m ih =>
      intro idx dels hmem hnot
      have hi : idx ∉ dels := by simpa using hnot 0 (Nat.succ_pos m)
      have h1 : List.replicate (m + 1 + 1) x = x :: List.replicate (m + 1) x :=
        List.replicate_succ x (m + 1)
      rw [h1, eraseIdxs, if_neg hi]
      rw [ih (idx + 1) dels
        (by simpa [show idx + 1 + m = idx + (m + 1) by omega] using hmem)
        (fun j hj => by
          simpa [show idx + 1 + j = idx + (j + 1) by omega] using
            hnot (j + 1) (by omega))]
      exact (List.replicate_succ x m).symm

theorem mark_rep_inc : ∀ (n idx : Nat) (rest : List Inst)
    (inc dec : List (Operand × Nat)) (v : Operand),
    mark idx (List.replicate (n + 1) (Inst.call "Py_IncRef" v) ++ rest) inc dec
      = mark (idx + n + 1) rest (dictSet inc v (idx + n)) dec := by
  intro n
  induction n with
  | zero =>
      intro idx rest inc dec v
      simp [List.replicate, mark]
  | succ m ih =>
      intro idx rest inc dec v
      have h1 : List.replicate (m + 1 + 1) (Inst.call "Py_IncRef" v)
          = Inst.call "Py_IncRef" v :: List.replicate (m + 1) (Inst.call "Py_IncRef" v) :=
        List.replicate_succ _ (m + 1)
      rw [h1, List.cons_append, mark, if_pos rfl]
      rw [ih (idx + 1) rest (dictSet inc v idx) dec v, dictSet_dictSet]
      have e1 : idx + 1 + m + 1 = idx + (m + 1) + 1 := by omega
      have e2 : idx + 1 + m = idx + (m + 1) := by omega
      rw [e1, e2]

theorem mark_rep_dec : ∀ (n idx : Nat) (rest : List Inst)
    (inc dec : List (Operand × Nat)) (v : Operand),
    mark idx (List.replicate (n + 1) (Inst.call "Py_DecRef" v) ++ rest) inc dec
      = mark (idx + n + 1) rest inc (dictSet dec v (idx + n)) := by
  intro n
  have hne : ¬ (("Py_DecRef" : String) = "Py_IncRef") := by decide
  induction n with
  | zero =>
      intro idx rest inc dec v
      simp [List.replicate, mark, hne]
  | succ m ih =>
      intro idx rest inc dec v
      have h1 : List.replicate (m + 1 + 1) (Inst.call "Py_DecRef" v)
          = Inst.call "Py_DecRef" v :: List.replicate (m + 1) (Inst.call "Py_DecRef" v) :=
        List.replicate_succ _ (m + 1)
      rw [h1, List.cons_append, mark, if_neg hne, if_pos rfl]
      rw [ih (idx + 1) rest inc (dictSet dec v idx) v, dictSet_dictSet]
      have e1 : idx + 1 + m + 1 = idx + (m + 1) + 1 := by omega
      have e2 : idx + 1 + m = idx + (m + 1) := by omega
      rw [e1, e2]

theorem onePass_rep (N : Nat) (v : Operand) :
    onePass (List.replicate (N + 1) (Inst.call "Py_IncRef" v) ++
             List.replicate (N + 1) (Inst.call "Py_DecRef" v))
      = (List.replicate N (Inst.call "Py_IncRef" v) ++
         List.replicate N (Inst.call "Py_DecRef" v), true) := by
  have hmark : mark 0 (List.replicate (N + 1) (Inst.call "Py_IncRef" v) ++
      List.replicate (N + 1) (Inst.call "Py_DecRef" v)) [] []
      = ([(v, N)], [(v, N + 1 + N)]) := by
    rw [mark_rep_inc]
    rw [show List.replicate (N + 1) (Inst.call "Py_DecRef" v)
        = List.replicate (N + 1) (Inst.call "Py_DecRef" v) ++ [] from
      (List.append_nil _).symm]
    rw [mark_rep_dec]
    simp [mark, dictSet]
  have hsweep : sweep [(v, N)] [(v, N + 1 + N)] = [N, N + 1 + N] := by
    simp [sweep, dictGet]
  have herase : eraseIdxs 0 (List.replicate (N + 1) (Inst.call "Py_IncRef" v) ++
      List.replicate (N + 1) (Inst.call "Py_DecRef" v)) [N, N + 1 + N]
      = List.replicate N (Inst.call "Py_IncRef" v) ++
        List.replicate N (Inst.call "Py_DecRef" v) := by
    rw [eraseIdxs_append]
    congr 1
    · apply eraseIdxs_rep_last
      · simp
      · intro j hj hmem
        simp only [List.mem_cons, List.not_mem_nil, or_false] at hmem
        omega
    · rw [List.length_replicate]
      rw [show (0 : Nat) + (N + 1) = N + 1 from by omega]
      apply eraseIdxs_rep_last
      · exact List.mem_cons_of_mem _ (List.mem_cons_self _ _)
      · intro j hj hmem
        simp only [List.mem_cons, List.not_mem_nil, or_false] at hmem
        omega
  simp only [onePass, hmark, hsweep, herase]
  rfl

theorem rrp_rep (v : Operand) : ∀ (N : Nat),
    remove_refct_pairs (List.replicate N (Inst.call "Py_IncRef" v) ++
      List.replicate N (Inst.call "Py_DecRef" v)) = [] := by
  intro N
  induction N with
  | zero =>
      simp only [List.replicate, List.nil_append]
      exact rrp_of_fix [] rfl
  | succ m ih =>
      rw [remove_refct_pairs, onePass_rep m v]
      simpa using ih

/-- A pass that reports `didsomething` erased a full pair: two
instructions. -/
theorem onePass_two (bb : List Inst) (h : (onePass bb).2 = true) :
    (onePass bb).1.length + 2 ≤ bb.length := by
  by_cases he : (sweep (mark 0 bb [] []).1 (mark 0 bb [] []).2).isEmpty
  · simp [onePass, he] at h
  · simp only [onePass, he, Bool.false_eq_true, if_false]
    obtain ⟨d, hd⟩ := List.exists_mem_of_ne_nil _
      (by simpa [List.isEmpty_iff] using he)
    obtain ⟨k, i, j, hki, hkj, hidels, hjdels⟩ := sweep_pairs hd
    rcases mark_fst_mem bb 0 [] [] k i hki with h' | ⟨ji, hji, hvi, hgi⟩
    · simp at h'
    · rcases mark_snd_mem bb 0 [] [] k j (dictGet_mem hkj) with h' | ⟨jj, hjj, hvj, hgj⟩
      · simp at h'
      · have hii : i = ji := by omega
        subst hii
        have hjje : j = jj := by omega
        subst hjje
        have hne : i ≠ j := by
          intro heq
          have hsame : Inst.call "Py_IncRef" k = Inst.call "Py_DecRef" k := by
            rw [← hgi, ← hgj]
            congr 1
            exact Fin.mk_eq_mk.mpr heq
          have hstr : ("Py_IncRef" : String) ≠ "Py_DecRef" := by decide
          rw [Inst.call.injEq] at hsame
          exact hstr hsame.1
        exact eraseIdxs_length_two bb 0 _ i j hidels hjdels hne
          (Nat.zero_le i) (by omega) (Nat.zero_le j) (by omega)

/-- If no operand has both an increment and a decrement in the block,
the first pass already reports no change. -/
theorem onePass_noPairs (bb : List Inst)
    (h : ∀ v : Operand,
      bb.filter (isIncrefOf v) = [] ∨ bb.filter (isDecrefOf v) = []) :
    (onePass bb).2 = false := by
  have hnil : sweep (mark 0 bb [] []).1 (mark 0 bb [] []).2 = [] := by
    apply sweep_nil
    intro k i hk
    cases hget : dictGet (mark 0 bb [] []).2 k with
    | none => rfl
    | some j =>
        exfalso
        rcases mark_fst_mem bb 0 [] [] k i hk with h' | ⟨ji, hji, hvi, hgi⟩
        · simp at h'
        · rcases mark_snd_mem bb 0 [] [] k j (dictGet_mem hget) with
            h' | ⟨jj, hjj, hvj, hgj⟩
          · simp at h'
          · have hincmem : bb.get ⟨ji, hji⟩ ∈ bb.filter (isIncrefOf k) :=
              List.mem_filter.mpr ⟨List.get_mem bb ji hji,
                by rw [hgi]; simp [isIncrefOf]⟩
            have hdecmem : bb.get ⟨jj, hjj⟩ ∈ bb.filter (isDecrefOf k) :=
              List.mem_filter.mpr ⟨List.get_mem bb jj hjj,
                by rw [hgj]; simp [isDecrefOf]⟩
            rcases h k with hh | hh
            · rw [hh] at hincmem; simp at hincmem
            · rw [hh] at hdecmem; simp at hdecmem
  simp [onePass, hnil]

/-! ## The native function registry and `get_executable` -/

/-- A function descriptor as consumed by `get_executable` (produced by
the out-of-scope front end, immutable). -/
structure FunctionDescriptor where
  llvm_func_name : String
  llvm_cpython_wrapper_name : String
  lookup_module : String
  qualname : String
  doc : String
  native : Bool

/-- An LLVM function handle; the code only reads back its symbol
name. -/
structure LLVMFunc where
  name : String

/-- The compiled-library service boundary: `get_function` resolves a
symbol to a function handle, `get_pointer_to_function` to its runtime
address. -/
structure Library where
  get_function : String → LLVMFunc
  get_pointer_to_function : String → Nat

/-- The callable object built by `_dynfunc.make_function(module, name,
doc, fnptr, env)`: determined by its five construction arguments. -/
structure Callable where
  modobj : String
  name : String
  doc : String
  fnptr : Nat
  env : Nat
deriving DecidableEq

def make_function (modobj nm doc : String) (fnptr env : Nat) : Callable :=
  { modobj := modobj, name := nm, doc := doc, fnptr := fnptr, env := env }

/-- Python `str.split('.')`: character groups between occurrences of
the dot separator. -/
def splitDots (cs : List Char) : List (List Char) :=
  match cs with
  | [] => [[]]
  | c :: rest =>
      let r := splitDots rest
      if c = '.' then [] :: r
      else
        match r with
        | [] => [[c]]
        | g :: gs => (c :: g) :: gs

/-- `qualname.split('.')[-1]`: the last dot-separated component. -/
def qualnameLast (s : String) : String :=
  String.mk ((splitDots s.toList).getLastD [])

/-- The native function registry `self.native_funcs`: an
insertion-ordered mapping from callable to (native symbol name, native
address). -/
abbrev Registry := List (Callable × (String × Nat))

/-- Modelled from the spec: `utils.UniqueDict.__setitem__` (the class
lives in `numba/utils.py`, outside this file) — "every entry's key must
be unique": inserting an existing key is an error; otherwise the
binding is appended in insertion order. -/
def registry_set (reg : Registry) (k : Callable) (v : String × Nat) :
    Except String Registry :=
  if reg.any fun e => decide (e.1 = k) then
    Except.error "AssertionError: key already in dictionary"
  else
    Except.ok (reg ++ [(k, v)])

/-- `remove_native_function` of `cpu.py`: `del self.native_funcs[func]`;
per its docstring, "KeyError is raised if the function isn't known to
us"; on success the key's entry is deleted. -/
def remove_native_function (reg : Registry) (func : Callable) :
    Except String Registry :=
  if reg.any fun e => decide (e.1 = func) then
    Except.ok (reg.filter fun e => !(decide (e.1 = func)))
  else
    Except.error "KeyError"

/-- `get_executable` of `cpu.py`: resolve the native function and the
wrapper, take their addresses, build the callable from the wrapper
address, and register (callable ↦ (native symbol, native address))
when the descriptor is native.  The function's `return cfunc` returns
the callable alone; the registry is threaded explicitly here because
state is explicit in this embedding. -/
def get_executable (native_funcs : Registry) (library : Library)
    (fndesc : FunctionDescriptor) (env : Nat) :
    Except String (Callable × Registry) :=
  let func := library.get_function fndesc.llvm_func_name
  let wrapper := library.get_function fndesc.llvm_cpython_wrapper_name
  let baseptr := library.get_pointer_to_function func.name
  let fnptr := library.get_pointer_to_function wrapper.name
  let cfunc := make_function fndesc.lookup_module (qualnameLast fndesc.qualname)
    fndesc.doc fnptr env
  if fndesc.native then
    match registry_set native_funcs cfunc (fndesc.llvm_func_name, baseptr) with
    | Except.ok reg => Except.ok (cfunc, reg)
    | Except.error e => Except.error e
  else
    Except.ok (cfunc, native_funcs)

/-! ## `calc_array_sizeof` -/

/-- Modelled from the spec: the native type language of the layout
engine (`get_value_type` / `get_abi_sizeof` of the shared base context,
outside this file): scalars, pointers, fixed-length arrays, and
adjacent field pairs. -/
inductive Ty where
  | int8 : Ty
  | int32 : Ty
  | intp : Ty
  | pointer : Ty → Ty
  | fixedArray : Ty → Nat → Ty
  | pair : Ty → Ty → Ty

/-- Modelled from the spec: the layout engine's size query
(`get_abi_sizeof`) on a 64-bit target: pointer and `intp` fields take
one 8-byte machine word, fixed arrays multiply, adjacent fields add. -/
def get_abi_sizeof : Ty → Nat
  | Ty.int8 => 1
  | Ty.int32 => 4
  | Ty.intp => 8
  | Ty.pointer _ => 8
  | Ty.fixedArray t n => n * get_abi_sizeof t
  | Ty.pair a b => get_abi_sizeof a + get_abi_sizeof b

/-- `types.Array(dtype, ndim, layout)`: the canonical array type of a
given element type and rank. -/
structure ArrayTy where
  dtype : Ty
  ndim : Nat
  layout : String

/-- Modelled from the spec: the lowered value type of an array
descriptor ("the native storage size of an array descriptor of the
given rank"): fixed header fields (meminfo, parent, nitems, itemsize,
data pointer) followed by per-dimension shape and stride words. -/
def get_value_type (a : ArrayTy) : Ty :=
  Ty.pair (Ty.pointer Ty.int8)
    (Ty.pair (Ty.pointer Ty.int8)
      (Ty.pair Ty.intp
        (Ty.pair Ty.intp
          (Ty.pair (Ty.pointer a.dtype)
            (Ty.pair (Ty.fixedArray Ty.intp a.ndim)
              (Ty.fixedArray Ty.intp a.ndim))))))

/-- `calc_array_sizeof` of `cpu.py`: instantiate
`types.Array(types.int32, ndim, 'A')` and ask the layout engine for
its size. -/
def calc_array_sizeof (ndim : Nat) : Nat :=
  get_abi_sizeof (get_value_type { dtype := Ty.int32, ndim := ndim, layout := "A" })

/-! ## Concrete data for the registry and executable theorems -/

/-- A library resolving the native symbol `"f"` to address 100 and
every other symbol (in particular the wrapper `"w"`) to 200. -/
def wLib : Library :=
  { get_function := fun s => { name := s },
    get_pointer_to_function := fun s => if s = "f" then 100 else 200 }

/-- A native-mode descriptor over `wLib`. -/
def wDesc : FunctionDescriptor :=
  { llvm_func_name := "f", llvm_cpython_wrapper_name := "w",
    lookup_module := "mod", qualname := "pkg.fn", doc := "d", native := true }

/-- The callable `get_executable` builds from `wLib` and `wDesc` with
environment 7: bound to the wrapper address 200. -/
def wCallable : Callable :=
  { modobj := "mod", name := "fn", doc := "d", fnptr := 200, env := 7 }

/-- A second, distinct callable, used for registry-removal checks. -/
def wCallable2 : Callable :=
  { modobj := "mod", name := "gn", doc := "d", fnptr := 300, env := 7 }

/-! ## The claims -/

/-- Claim C1: for every basic block consisting of N increment calls on
a single operand followed by N decrement calls on the same operand
(N ≥ 1), `remove_refct_pairs` leaves no increment and no decrement
instruction for that operand — in fact, nothing at all. -/
theorem remove_refct_pairs_full_cancel (N : Nat) (v : Operand) (hN : 1 ≤ N) :
    remove_refct_pairs (List.replicate N (Inst.call "Py_IncRef" v) ++
      List.replicate N (Inst.call "Py_DecRef" v)) = [] :=
  rrp_rep v N

theorem remove_refct_pairs_full_cancel_witness :
    remove_refct_pairs
      (List.replicate 3 (Inst.call "Py_IncRef" (Operand.value 0)) ++
       List.replicate 3 (Inst.call "Py_DecRef" (Operand.value 0))) = [] :=
  remove_refct_pairs_full_cancel 3 (Operand.value 0) (by decide)

/-- Claim C2: `remove_refct_pairs` is idempotent — running it a second
time on a block it already processed changes nothing, because its
internal fixed-point loop already ran until no pair remained. -/
theorem remove_refct_pairs_idempotent (bb : List Inst) :
    remove_refct_pairs (remove_refct_pairs bb) = remove_refct_pairs bb :=
  rrp_of_fix _ (rrp_fix bb)

/-- Claim C6: the pass is pure and total: on a block where no operand
has both an increment and a decrement it performs zero eliminations;
each iteration of its fixed-point loop either erases a full pair (two
instructions, so the loop terminates) or reports no change and leaves
the block as it is. -/
theorem remove_refct_pairs_total (bb : List Inst) :
    ((∀ v : Operand,
        bb.filter (isIncrefOf v) = [] ∨ bb.filter (isDecrefOf v) = []) →
      remove_refct_pairs bb = bb)
    ∧ ((onePass bb).2 = true → (onePass bb).1.length + 2 ≤ bb.length)
    ∧ ((onePass bb).2 = false → (onePass bb).1 = bb) :=
  ⟨fun h => rrp_of_fix bb (onePass_noPairs bb h), onePass_two bb,
    onePass_false bb⟩

theorem remove_refct_pairs_total_witness :
    remove_refct_pairs [Inst.other 0, Inst.call "foo" (Operand.value 1)]
      = [Inst.other 0, Inst.call "foo" (Operand.value 1)]
    ∧ (onePass [Inst.call "Py_IncRef" (Operand.value 2),
         Inst.call "Py_DecRef" (Operand.value 2)]).1.length + 2
        ≤ ([Inst.call "Py_IncRef" (Operand.value 2),
            Inst.call "Py_DecRef" (Operand.value 2)] : List Inst).length
    ∧ (onePass [Inst.other 5]).1 = [Inst.other 5] :=
  ⟨(remove_refct_pairs_total _).1
      (fun v => Or.inl (by simp [isIncrefOf])),
   (remove_refct_pairs_total _).2.1 (by decide),
   (remove_refct_pairs_total _).2.2 (by decide)⟩

/-- Claim C7: an operand appearing only in increment calls (no
decrement on it in the block), or only in decrement calls, keeps all
its instructions untouched. -/
theorem remove_refct_pairs_one_sided (bb : List Inst) (v : Operand) :
    (bb.filter (isDecrefOf v) = [] →
      (remove_refct_pairs bb).filter (isIncrefOf v)
        = bb.filter (isIncrefOf v))
    ∧ (bb.filter (isIncrefOf v) = [] →
      (remove_refct_pairs bb).filter (isDecrefOf v)
        = bb.filter (isDecrefOf v)) :=
  ⟨rrp_filter_inc bb v, rrp_filter_dec bb v⟩

theorem remove_refct_pairs_one_sided_witness :
    (remove_refct_pairs
        [Inst.call "Py_IncRef" (Operand.value 0), Inst.other 1]).filter
        (isIncrefOf (Operand.value 0))
      = [Inst.call "Py_IncRef" (Operand.value 0), Inst.other 1].filter
          (isIncrefOf (Operand.value 0))
    ∧ (remove_refct_pairs [Inst.call "Py_DecRef" (Operand.value 0)]).filter
        (isDecrefOf (Operand.value 0))
      = [Inst.call "Py_DecRef" (Operand.value 0)].filter
          (isDecrefOf (Operand.value 0)) :=
  ⟨(remove_refct_pairs_one_sided _ _).1 (by decide),
   (remove_refct_pairs_one_sided _ _).2 (by decide)⟩

/-- Claim C10: the pass only ever erases calls named exactly
`Py_IncRef` or `Py_DecRef`: the result is a subsequence of the block
(surviving instructions keep their relative order) in which every
non-refcount instruction is preserved exactly. -/
theorem remove_refct_pairs_frame (bb : List Inst) :
    List.Sublist (remove_refct_pairs bb) bb
    ∧ (remove_refct_pairs bb).filter (fun i => !(isIncref i || isDecref i))
      = bb.filter (fun i => !(isIncref i || isDecref i)) :=
  ⟨rrp_sublist bb, rrp_filter_other bb⟩

/-- Claim C8: the null-reference elision rule is unimplemented:
`remove_null_refct_call` is the identity on every block (including
blocks with refcount calls on a null operand), and the full
`remove_refct_calls` pass therefore reduces to the pairing rule
alone. -/
theorem remove_null_refct_call_id :
    (∀ bb : List Inst, remove_null_refct_call bb = bb)
    ∧ (∀ func : List (List Inst),
        remove_refct_calls func = func.map remove_refct_pairs) :=
  ⟨fun _ => rfl, fun _ => rfl⟩

/-- Claim C4: removing a never-registered callable fails with KeyError
(no updated registry is produced), and after a successful removal a
second removal of the same callable also fails. -/
theorem remove_native_function_contract (reg reg' : Registry)
    (func : Callable) :
    ((∀ e ∈ reg, e.1 ≠ func) →
      remove_native_function reg func = Except.error "KeyError")
    ∧ (remove_native_function reg func = Except.ok reg' →
      remove_native_function reg' func = Except.error "KeyError") := by
  constructor
  · intro h
    have hany : ¬ (reg.any fun e => decide (e.1 = func)) = true := by
      intro hany
      rcases List.any_eq_true.mp hany with ⟨e, he, hpe⟩
      exact h e he (of_decide_eq_true hpe)
    simp only [remove_native_function, if_neg hany]
  · intro hok
    have hany : (reg.any fun e => decide (e.1 = func)) = true := by
      by_contra hany
      simp [remove_native_function, if_neg hany] at hok
    have hreg' : reg' = reg.filter fun e => !(decide (e.1 = func)) := by
      simp only [remove_native_function, if_pos hany, Except.ok.injEq] at hok
      exact hok.symm
    have hnone : ¬ (reg'.any fun e => decide (e.1 = func)) = true := by
      intro hany2
      rcases List.any_eq_true.mp hany2 with ⟨e, he, hpe⟩
      rw [hreg'] at he
      have h2 := (List.mem_filter.mp he).2
      rw [hpe] at h2
      simp at h2
    simp only [remove_native_function, if_neg hnone]

theorem remove_native_function_contract_witness :
    remove_native_function [] wCallable = Except.error "KeyError"
    ∧ remove_native_function [] wCallable2 = Except.error "KeyError" :=
  ⟨(remove_native_function_contract [] [] wCallable).1 (by simp),
   (remove_native_function_contract [(wCallable2, ("g", 5))] []
      wCallable2).2 rfl⟩

/-- Claim C5: every successful `get_executable` call adds exactly one
registry entry, mapping the new callable to (native symbol name,
native address), when the descriptor is native; for a non-native
descriptor the registry is unchanged. -/
theorem get_executable_registry (reg : Registry) (library : Library)
    (fndesc : FunctionDescriptor) (env : Nat) (c : Callable)
    (reg' : Registry)
    (h : get_executable reg library fndesc env = Except.ok (c, reg')) :
    (fndesc.native = true →
      reg' = reg ++ [(c, (fndesc.llvm_func_name,
        library.get_pointer_to_function
          (library.get_function fndesc.llvm_func_name).name))])
    ∧ (fndesc.native = false → reg' = reg) := by
  simp only [get_executable] at h
  by_cases hnat : fndesc.native = true
  · rw [if_pos hnat] at h
    refine ⟨fun _ => ?_, fun hnat' => absurd hnat' (by simp [hnat])⟩
    split at h
    · next reg2 heq =>
        simp only [Except.ok.injEq, Prod.mk.injEq] at h
        obtain ⟨hc, hr⟩ := h
        simp only [registry_set] at heq
        split at heq
        · exact absurd heq (by simp)
        · simp only [Except.ok.injEq] at heq
          rw [← hr, ← heq, ← hc]
    · next e heq => simp at h
  · rw [if_neg hnat] at h
    refine ⟨fun hnat' => absurd hnat' hnat, fun _ => ?_⟩
    simp only [Except.ok.injEq, Prod.mk.injEq] at h
    exact h.2.symm

theorem get_executable_registry_witness :
    [(wCallable, ("f", 100))]
      = ([] : Registry) ++ [(wCallable, ("f",
          wLib.get_pointer_to_function (wLib.get_function "f").name))] :=
  (get_executable_registry [] wLib wDesc 7 wCallable
    [(wCallable, ("f", 100))] rfl).1 rfl

/-- Claim C3 (the code contradicts its own docstring): evaluating
`get_executable` on a concrete library and native descriptor shows the
function's `return cfunc` hands back only the constructed callable —
bound to the wrapper address 200 — not a (callable, address) pair,
while the native address 100 reaches only the registry. -/
theorem get_executable_returns_callable_only :
    get_executable [] wLib wDesc 7
      = Except.ok (wCallable, [(wCallable, ("f", 100))]) := rfl

/-- Claim C9: `calc_array_sizeof` is monotonically non-decreasing in
the rank, at rank 0 it is the layout size of a 0-rank array
descriptor, and the descriptor size is independent of the element
type. -/
theorem calc_array_sizeof_spec :
    (∀ m n : Nat, m ≤ n → calc_array_sizeof m ≤ calc_array_sizeof n)
    ∧ calc_array_sizeof 0
        = get_abi_sizeof (get_value_type
            { dtype := Ty.int32, ndim := 0, layout := "A" })
    ∧ (∀ (dtype : Ty) (n : Nat),
        get_abi_sizeof (get_value_type
          { dtype := dtype, ndim := n, layout := "A" })
          = calc_array_sizeof n) := by
  refine ⟨?_, rfl, ?_⟩
  · intro m n hmn
    simp only [calc_array_sizeof, get_value_type, get_abi_sizeof]
    omega
  · intro dtype n
    simp only [calc_array_sizeof, get_value_type, get_abi_sizeof]

theorem calc_array_sizeof_spec_witness :
    calc_array_sizeof 1 ≤ calc_array_sizeof 2 :=
  calc_array_sizeof_spec.1 1 2 (by decide)

end NumbaCPU
